import Mathlib

set_option maxRecDepth 100000

/-!
Shallow embedding of the gxcore codec (src/src/lib.rs): seed-derived
base64-alphabet obfuscation with CRC32 framing and optional compression.

Bytes are modelled as `Nat` values below 256, byte buffers as `List Nat`.
The sha2, crc32fast and base64 crates the source calls are standard,
fully specified algorithms and are embedded directly (FIPS 180-4 SHA-256,
the IEEE reflected CRC32 that crc32fast computes, and the base64 crate's
STANDARD engine: padded, canonical padding required, trailing bits
rejected).  The lz4 crate is an external black box; it is modelled as an
explicit pair of compress/decompress functions (`Lz4`) that the pipeline
definitions take as a parameter, so theorems about the `Lz4` variant
hypothesise exactly the library facts they need.
-/

/-- Canonical base64 alphabet `A-Z a-z 0-9 + /` as byte values
(`BASE64_ALPHABET` in the source). -/
def BASE64_ALPHABET : List Nat :=
  [65, 66, 67, 68, 69, 70, 71, 72, 73, 74, 75, 76, 77, 78, 79, 80,
   81, 82, 83, 84, 85, 86, 87, 88, 89, 90,
   97, 98, 99, 100, 101, 102, 103, 104, 105, 106, 107, 108, 109, 110,
   111, 112, 113, 114, 115, 116, 117, 118, 119, 120, 121, 122,
   48, 49, 50, 51, 52, 53, 54, 55, 56, 57, 43, 47]

/-- Modulus for 32-bit arithmetic. -/
def M32 : Nat := 4294967296

/-- Rotate a 32-bit value right by `n` bits. -/
def rotr (n x : Nat) : Nat := (x >>> n) ||| ((x % (2 ^ n)) <<< (32 - n))

/-- SHA-256 Ch function. -/
def shaCh (x y z : Nat) : Nat := (x &&& y) ^^^ ((x ^^^ (M32 - 1)) &&& z)

/-- SHA-256 Maj function. -/
def shaMaj (x y z : Nat) : Nat := (x &&& y) ^^^ (x &&& z) ^^^ (y &&& z)

/-- SHA-256 big sigma 0. -/
def bigS0 (x : Nat) : Nat := rotr 2 x ^^^ rotr 13 x ^^^ rotr 22 x

/-- SHA-256 big sigma 1. -/
def bigS1 (x : Nat) : Nat := rotr 6 x ^^^ rotr 11 x ^^^ rotr 25 x

/-- SHA-256 small sigma 0. -/
def smallS0 (x : Nat) : Nat := rotr 7 x ^^^ rotr 18 x ^^^ (x >>> 3)

/-- SHA-256 small sigma 1. -/
def smallS1 (x : Nat) : Nat := rotr 17 x ^^^ rotr 19 x ^^^ (x >>> 10)

/-- SHA-256 round constants. -/
def shaK : List Nat :=
  [1116352408, 1899447441, 3049323471, 3921009573, 961987163,
   1508970993, 2453635748, 2870763221, 3624381080, 310598401,
   607225278, 1426881987, 1925078388, 2162078206, 2614888103,
   3248222580, 3835390401, 4022224774, 264347078, 604807628,
   770255983, 1249150122, 1555081692, 1996064986, 2554220882,
   2821834349, 2952996808, 3210313671, 3336571891, 3584528711,
   113926993, 338241895, 666307205, 773529912, 1294757372,
   1396182291, 1695183700, 1986661051, 2177026350, 2456956037,
   2730485921, 2820302411, 3259730800, 3345764771, 3516065817,
   3600352804, 4094571909, 275423344, 430227734, 506948616,
   659060556, 883997877, 958139571, 1322822218, 1537002063,
   1747873779, 1955562222, 2024104815, 2227730452, 2361852424,
   2428436474, 2756734187, 3204031479, 3329325298]

/-- SHA-256 initial hash state. -/
def shaH0 : List Nat :=
  [1779033703, 3144134277, 1013904242, 2773480762,
   1359893119, 2600822924, 528734635, 1541459225]

/-- Big-endian 8-byte encoding of a (64-bit) natural. -/
def toBeBytes8 (n : Nat) : List Nat :=
  [(n >>> 56) % 256, (n >>> 48) % 256, (n >>> 40) % 256, (n >>> 32) % 256,
   (n >>> 24) % 256, (n >>> 16) % 256, (n >>> 8) % 256, n % 256]

/-- SHA-256 message padding: append 0x80, zero bytes to 56 mod 64, then the
bit length as 8 big-endian bytes. -/
def shaPad (msg : List Nat) : List Nat :=
  msg ++ 128 :: List.replicate ((119 - msg.length % 64) % 64) 0
      ++ toBeBytes8 (8 * msg.length)

/-- Group bytes into big-endian 32-bit words. -/
def toWords : List Nat → List Nat
  | a :: b :: c :: d :: rest => (((a * 256 + b) * 256 + c) * 256 + d) :: toWords rest
  | _ => []

/-- Next word of the SHA-256 message schedule, from the already-computed
words. -/
def newW (acc : List Nat) : Nat :=
  (acc.getD (acc.length - 16) 0 + smallS0 (acc.getD (acc.length - 15) 0)
   + acc.getD (acc.length - 7) 0 + smallS1 (acc.getD (acc.length - 2) 0)) % M32

/-- Extend the 16-word block by `n` schedule words. -/
def extendW : Nat → List Nat → List Nat
  | 0, acc => acc
  | n + 1, acc => extendW n (acc ++ [newW acc])

/-- One SHA-256 compression round; `st` is the 8-word working state, `kw`
the sum of the round constant and schedule word. -/
def shaRound (st : List Nat) (kw : Nat) : List Nat :=
  let a := st.getD 0 0
  let b := st.getD 1 0
  let c := st.getD 2 0
  let d := st.getD 3 0
  let e := st.getD 4 0
  let f := st.getD 5 0
  let g := st.getD 6 0
  let h := st.getD 7 0
  let t1 := (h + bigS1 e + shaCh e f g + kw) % M32
  let t2 := (bigS0 a + shaMaj a b c) % M32
  [(t1 + t2) % M32, a, b, c, (d + t1) % M32, e, f, g]

/-- SHA-256 compression of one 16-word block into the hash state. -/
def shaCompress (h : List Nat) (block : List Nat) : List Nat :=
  let w := extendW 48 block
  let st := (List.zipWith (fun k wi => (k + wi) % M32) shaK w).foldl shaRound h
  List.zipWith (fun x y => (x + y) % M32) h st

/-- Process `n` 16-word blocks of `ws`. -/
def shaLoop : Nat → List Nat → List Nat → List Nat
  | 0, h, _ => h
  | n + 1, h, ws => shaLoop n (shaCompress h (ws.take 16)) (ws.drop 16)

/-- SHA-256 digest of a byte sequence, as 32 bytes (the sha2 crate call in
`derive_alphabet`). -/
def sha256 (msg : List Nat) : List Nat :=
  let ws := toWords (shaPad msg)
  let hh := shaLoop (ws.length / 16) shaH0 ws
  hh.foldr (fun w acc =>
    (w >>> 24) % 256 :: (w >>> 16) % 256 :: (w >>> 8) % 256 :: w % 256 :: acc) []

/-- One bit-step of the reflected CRC32 (polynomial 0xEDB88320). -/
def crc32Step (c : Nat) : Nat :=
  if c % 2 = 1 then (c >>> 1) ^^^ 0xEDB88320 else c >>> 1

/-- Iterate `crc32Step`. -/
def crc32Bits : Nat → Nat → Nat
  | 0, c => c
  | n + 1, c => crc32Bits n (crc32Step c)

/-- CRC32 (IEEE, as computed by crc32fast / zlib) of a byte sequence. -/
def crc32 (data : List Nat) : Nat :=
  (data.foldl (fun c b => crc32Bits 8 (c ^^^ b)) 0xFFFFFFFF) ^^^ 0xFFFFFFFF

/-- Little-endian 4-byte encoding of a 32-bit value
(`u32::to_le_bytes`). -/
def toLeBytes4 (n : Nat) : List Nat :=
  [n % 256, (n >>> 8) % 256, (n >>> 16) % 256, (n >>> 24) % 256]

/-- Read 4 little-endian bytes as a 32-bit value
(`u32::from_le_bytes`). -/
def fromLeBytes4 (l : List Nat) : Nat :=
  l.getD 0 0 + 256 * l.getD 1 0 + 65536 * l.getD 2 0 + 16777216 * l.getD 3 0

/-- Symbol of the canonical alphabet at an index (`BASE64_ALPHABET[idx]`). -/
def b64Sym (i : Nat) : Nat := BASE64_ALPHABET.getD i 0

/-- Position of a byte in the canonical alphabet
(`BASE64_ALPHABET.iter().position(|&c| c == b)`). -/
def b64Pos (b : Nat) : Option Nat := BASE64_ALPHABET.findIdx? (fun c => c == b)

/-- Standard base64 encoding with padding of a byte sequence, as the byte
values of the text (the base64 crate's STANDARD engine encode). -/
def encodeB64 : List Nat → List Nat
  | [] => []
  | [b1] => [b64Sym (b1 / 4), b64Sym (b1 % 4 * 16), 61, 61]
  | [b1, b2] => [b64Sym (b1 / 4), b64Sym (b1 % 4 * 16 + b2 / 16), b64Sym (b2 % 16 * 4), 61]
  | b1 :: b2 :: b3 :: rest =>
      b64Sym (b1 / 4) :: b64Sym (b1 % 4 * 16 + b2 / 16)
        :: b64Sym (b2 % 16 * 4 + b3 / 64) :: b64Sym (b3 % 64) :: encodeB64 rest

/-- Standard base64 decoding (the base64 crate's STANDARD engine decode:
canonical padding required, `=` only in the last chunk, non-zero trailing
bits of the final symbol rejected). `none` is any decode error. -/
def decodeB64 : List Nat → Option (List Nat)
  | [] => some []
  | c1 :: c2 :: c3 :: c4 :: rest =>
      match b64Pos c1, b64Pos c2 with
      | some i1, some i2 =>
        if rest.isEmpty then
          if c3 = 61 then
            if c4 = 61 then
              if i2 % 16 = 0 then some [i1 * 4 + i2 / 16] else none
            else none
          else match b64Pos c3 with
            | some i3 =>
              if c4 = 61 then
                if i3 % 4 = 0 then some [i1 * 4 + i2 / 16, i2 % 16 * 16 + i3 / 4] else none
              else match b64Pos c4 with
                | some i4 => some [i1 * 4 + i2 / 16, i2 % 16 * 16 + i3 / 4, i3 % 4 * 64 + i4]
                | none => none
            | none => none
        else
          match b64Pos c3, b64Pos c4 with
          | some i3, some i4 =>
              (decodeB64 rest).map
                (fun tl => (i1 * 4 + i2 / 16) :: (i2 % 16 * 16 + i3 / 4) :: (i3 % 4 * 64 + i4) :: tl)
          | _, _ => none
      | _, _ => none
  | _ => none

/-- The compression selector of the source (`CompressionAlgorithm`). -/
inductive CompressionAlgorithm where
  | none
  | huffman
  | lz4
  | brotli
deriving DecidableEq

/-- Model of the external lz4 crate's block compress / decompress pair:
`compress data Default prepend_size=true` and `decompress data None`.
`Option.none` stands for the library returning an error. -/
structure Lz4 where
  compress : List Nat → Option (List Nat)
  decompress : List Nat → Option (List Nat)

/-- In-place swap of two positions of a list (`alphabet.swap(i, j)`). -/
def listSwap (l : List Nat) (i j : Nat) : List Nat :=
  (l.set i (l.getD j 0)).set j (l.getD i 0)

/-- Derive a permuted alphabet from a seed using SHA-256
(`derive_alphabet` in the source). -/
def derive_alphabet (seed : List Nat) : List Nat :=
  let hash := sha256 seed
  (List.range 64).foldl
    (fun alphabet i => listSwap alphabet i ((hash.getD (i % 32) 0 + i) % 64))
    BASE64_ALPHABET

/-- The substitution loop of `encode`: padding is kept, any other byte is
looked up in the canonical alphabet (`position(..).unwrap()`, modelled as
`none` on the impossible failure) and replaced by the derived alphabet's
byte at that position. -/
def substEncode (alphabet : List Nat) : List Nat → Option (List Nat)
  | [] => some []
  | b :: rest =>
      if b = 61 then (substEncode alphabet rest).map (fun r => 61 :: r)
      else match b64Pos b with
        | some idx => (substEncode alphabet rest).map (fun r => alphabet.getD idx 0 :: r)
        | none => none

/-- Encode data with optional compression, checksum, and custom alphabet
(`encode` in the source).  `Option.none` models the two `unwrap` panics
(lz4 compression failure, canonical-alphabet lookup failure). -/
def encode (z : Lz4) (data seed : List Nat) (compression : CompressionAlgorithm) :
    Option (List Nat) :=
  let alphabet := derive_alphabet seed
  match (match compression with
         | .none => some data
         | .lz4 => z.compress data
         | .brotli => some data
         | .huffman => some data) with
  | Option.none => Option.none
  | some processed =>
      substEncode alphabet (encodeB64 (processed ++ toLeBytes4 (crc32 processed)))

/-- The reverse substitution loop of `decode`: padding kept, any other
byte looked up in the derived alphabet (failure is the source's
"Invalid character" error) and replaced by the canonical byte at that
position. -/
def substDecode (alphabet : List Nat) : List Nat → Except String (List Nat)
  | [] => Except.ok []
  | b :: rest =>
      if b = 61 then (substDecode alphabet rest).map (fun r => 61 :: r)
      else match alphabet.findIdx? (fun c => c == b) with
        | some idx => (substDecode alphabet rest).map (fun r => b64Sym idx :: r)
        | Option.none => Except.error "Invalid character"

/-- Decode data, verify checksum (`decode` in the source). -/
def decode (z : Lz4) (encoded seed : List Nat) (compression : CompressionAlgorithm) :
    Except String (List Nat) :=
  let alphabet := derive_alphabet seed
  match substDecode alphabet encoded with
  | Except.error e => Except.error e
  | Except.ok standard_encoded =>
    match decodeB64 standard_encoded with
    | Option.none => Except.error "Invalid base64"
    | some decoded =>
      if decoded.length < 4 then Except.error "Data too short"
      else
        let data := decoded.take (decoded.length - 4)
        let expected_checksum := fromLeBytes4 (decoded.drop (decoded.length - 4))
        if crc32 data ≠ expected_checksum then Except.error "Checksum mismatch"
        else
          match compression with
          | .none => Except.ok data
          | .lz4 =>
              match z.decompress data with
              | some r => Except.ok r
              | Option.none => Except.error "Decompression LZ4 failed"
          | .brotli => Except.ok data
          | .huffman => Except.ok data

/-- The per-byte mapping of `partial_verify`: padding kept, a byte found in
the canonical alphabet mapped to itself, an unknown byte mapped to index 0
(`unwrap_or(0)`). -/
def pvMap (b : Nat) : Nat :=
  if b = 61 then 61
  else match b64Pos b with
       | some idx => b64Sym idx
       | Option.none => b64Sym 0

/-- Partial verification without key: decode with default alphabet and
check checksum (`partial_verify` in the source). -/
def partial_verify (encoded : List Nat) : Bool :=
  let standard_encoded := encoded.map pvMap
  match decodeB64 standard_encoded with
  | some decoded =>
      if 4 ≤ decoded.length then
        let data := decoded.take (decoded.length - 4)
        crc32 data == fromLeBytes4 (decoded.drop (decoded.length - 4))
      else false
  | Option.none => false

/-- Checksum framer `frame`: append the 4-byte little-endian CRC32 of the
payload (the inline framing step of `encode`). -/
def frame (payload : List Nat) : List Nat := payload ++ toLeBytes4 (crc32 payload)

/-- Checksum framer `unframe`: split and verify the trailing 4-byte
checksum (the inline unframing step of `decode`). -/
def unframe (buffer : List Nat) : Except String (List Nat × Nat) :=
  if buffer.length < 4 then Except.error "Data too short"
  else
    let data := buffer.take (buffer.length - 4)
    let expected := fromLeBytes4 (buffer.drop (buffer.length - 4))
    if crc32 data ≠ expected then Except.error "Checksum mismatch"
    else Except.ok (data, expected)

/-- One pass of the claim's alphabet-derivation loop, index-carrying
recursion: with `fuel` steps left at index `i`, swap `i` with
`(digest[i mod 32] + i) mod 64`. -/
def specSwapGo (digest : List Nat) : Nat → Nat → List Nat → List Nat
  | 0, _, alphabet => alphabet
  | fuel + 1, i, alphabet =>
      specSwapGo digest fuel (i + 1)
        (listSwap alphabet i ((digest.getD (i % 32) 0 + i) % 64))

/-- Alphabet derivation exactly as the claim words it: SHA-256 digest of
the seed, then for each i in [0,64) swap positions i and
(digest[i mod 32] + i) mod 64, starting from the canonical alphabet. -/
def derive_alphabet_claim (seed : List Nat) : List Nat :=
  specSwapGo (sha256 seed) 64 0 BASE64_ALPHABET

/-- Identity compression model, used to instantiate witnesses. -/
def lz4Id : Lz4 := ⟨fun l => some l, fun l => some l⟩

/-- A byte sequence: every element is below 256. -/
def Bytes (l : List Nat) : Prop := ∀ b ∈ l, b < 256

instance (l : List Nat) : Decidable (Bytes l) :=
  List.decidableBAll _ l

/-- The checksum-collision edge case of single-byte corruption: the
corrupted text still de-substitutes and base64-decodes, to a buffer that
differs from the original frame of the processed payload `p`, yet its
recomputed CRC32 coincides with its stored trailing checksum. -/
def ChecksumCollision (s e' p : List Nat) : Prop :=
  ∃ std dec, substDecode (derive_alphabet s) e' = Except.ok std ∧
    decodeB64 std = some dec ∧ dec ≠ p ++ toLeBytes4 (crc32 p) ∧
    4 ≤ dec.length ∧
    crc32 (dec.take (dec.length - 4)) = fromLeBytes4 (dec.drop (dec.length - 4))

/-! Facts about the canonical alphabet. -/

theorem base64_length : BASE64_ALPHABET.length = 64 := by decide

theorem base64_nodup : BASE64_ALPHABET.Nodup := by decide

theorem pad_not_mem_base64 : 61 ∉ BASE64_ALPHABET := by decide

theorem base64_bytes : ∀ b ∈ BASE64_ALPHABET, b < 256 := by decide

/-! A swap of two in-range positions permutes a list. -/

theorem getD_of_lt (l : List Nat) (i : Nat) (h : i < l.length) :
    l.getD i 0 = l[i] := by
  simp [List.getD_eq_getElem?_getD, List.getElem?_eq_getElem h]

theorem listSwap_perm (l : List Nat) (i j : Nat) (hi : i < l.length) (hj : j < l.length) :
    (listSwap l i j).Perm l := by
  rw [List.perm_iff_count]
  intro a
  rw [show listSwap l i j = (l.set i l[j]).set j l[i] by
    unfold listSwap; rw [getD_of_lt l i hi, getD_of_lt l j hj]]
  have hj' : j < (l.set i l[j]).length := by simpa using hj
  rw [List.count_set _ _ _ _ hj', List.count_set _ _ _ _ hi]
  have hmi : l[i] ∈ l := List.getElem_mem hi
  have hmj : l[j] ∈ l := List.getElem_mem hj
  by_cases hij : i = j
  · subst hij
    rw [List.getElem_set_self hj']
    by_cases h1 : l[i] = a
    · have : 0 < l.count a := List.count_pos_iff.mpr (h1 ▸ hmi)
      simp only [h1, beq_self_eq_true, if_true, beq_iff_eq]
      omega
    · simp [h1, beq_iff_eq]
  · rw [List.getElem_set_ne hij hj']
    by_cases h1 : l[i] = a <;> by_cases h2 : l[j] = a
    · have : 0 < l.count a := List.count_pos_iff.mpr (h1 ▸ hmi)
      simp only [h1, h2, beq_iff_eq, if_true, if_pos]
      omega
    · have : 0 < l.count a := List.count_pos_iff.mpr (h1 ▸ hmi)
      simp only [h1, h2, beq_iff_eq, if_true, if_false, if_pos, if_neg, not_false_iff]
      omega
    · have : 0 < l.count a := List.count_pos_iff.mpr (h2 ▸ hmj)
      simp only [h1, h2, beq_iff_eq, if_pos, if_neg, not_false_iff]
      omega
    · simp only [h1, h2, beq_iff_eq, if_neg, not_false_iff]
      omega

theorem foldl_listSwap_perm (f : Nat → Nat) (hf : ∀ i, f i < 64) :
    ∀ (idxs : List Nat) (alph : List Nat), (∀ i ∈ idxs, i < 64) →
      alph.Perm BASE64_ALPHABET →
      (idxs.foldl (fun a i => listSwap a i (f i)) alph).Perm BASE64_ALPHABET := by
  intro idxs
  induction idxs with
  | nil => intro alph _ h; exact h
  | cons i rest ih =>
    intro alph hmem h
    have hlen : alph.length = 64 := by rw [h.length_eq]; exact base64_length
    simp only [List.foldl_cons]
    apply ih _ (fun k hk => hmem k (List.mem_cons_of_mem _ hk))
    exact (listSwap_perm alph i (f i)
      (by rw [hlen]; exact hmem i (List.mem_cons_self i rest))
      (by rw [hlen]; exact hf i)).trans h

theorem derive_alphabet_perm (seed : List Nat) :
    (derive_alphabet seed).Perm BASE64_ALPHABET := by
  unfold derive_alphabet
  exact foldl_listSwap_perm (fun i => ((sha256 seed).getD (i % 32) 0 + i) % 64)
    (fun i => Nat.mod_lt _ (by omega))
    (List.range 64) BASE64_ALPHABET
    (fun i hi => List.mem_range.mp hi) (List.Perm.refl _)

/-! Lookup lemmas for the canonical and derived alphabets. -/

theorem b64Pos_of_lt : ∀ i, i < 64 → b64Pos (b64Sym i) = some i := by decide

theorem b64Sym_mem : ∀ i, i < 64 → b64Sym i ∈ BASE64_ALPHABET := by decide

theorem b64Pos_some {b idx : Nat} (h : b64Pos b = some idx) :
    idx < 64 ∧ b64Sym idx = b ∧ b ∈ BASE64_ALPHABET := by
  unfold b64Pos at h
  rw [List.findIdx?_eq_some_iff_getElem] at h
  obtain ⟨hlt, hp, -⟩ := h
  have hidx : idx < 64 := by simpa [base64_length] using hlt
  have heq : BASE64_ALPHABET[idx] = b := by simpa using hp
  refine ⟨hidx, ?_, ?_⟩
  · rw [b64Sym, getD_of_lt _ _ hlt, heq]
  · rw [← heq]; exact List.getElem_mem hlt

theorem b64Pos_of_mem {b : Nat} (h : b ∈ BASE64_ALPHABET) : ∃ idx, b64Pos b = some idx := by
  unfold b64Pos
  rcases heq : BASE64_ALPHABET.findIdx? (fun c => c == b) with _ | idx
  · rw [List.findIdx?_eq_none_iff] at heq
    exact absurd (heq b h) (by simp)
  · exact ⟨idx, rfl⟩

theorem findIdx?_self_of_nodup {alph : List Nat} (hnd : alph.Nodup) {idx : Nat}
    (hlt : idx < alph.length) :
    alph.findIdx? (fun c => c == alph.getD idx 0) = some idx := by
  rw [getD_of_lt _ _ hlt, List.findIdx?_eq_some_iff_getElem]
  refine ⟨hlt, by simp, ?_⟩
  intro j hji
  have hj : j < alph.length := Nat.lt_trans hji hlt
  simp only [beq_iff_eq]
  intro hc
  have : j = idx := (@List.Nodup.getElem_inj_iff _ _ hnd j hj idx hlt).mp hc
  omega

/-! Substitution round trip: over any permuted alphabet, the encode-side
substitution succeeds on base64 text and the decode-side substitution
inverts it. -/

theorem substEncode_ok {alph : List Nat} (h : alph.Perm BASE64_ALPHABET) :
    ∀ l : List Nat, (∀ b ∈ l, b = 61 ∨ b ∈ BASE64_ALPHABET) →
      ∃ r, substEncode alph l = some r ∧ substDecode alph r = Except.ok l ∧
           r.length = l.length ∧ (∀ c ∈ r, c = 61 ∨ c ∈ BASE64_ALPHABET) := by
  have hlen : alph.length = 64 := by rw [h.length_eq]; exact base64_length
  have hnd : alph.Nodup := (h.nodup_iff).mpr base64_nodup
  intro l
  induction l with
  | nil => exact fun _ => ⟨[], rfl, rfl, rfl, by simp⟩
  | cons b rest ih =>
    intro hmem
    obtain ⟨r, hr1, hr2, hr3, hr4⟩ := ih (fun c hc => hmem c (List.mem_cons_of_mem _ hc))
    rcases hmem b (List.mem_cons_self _ _) with hb | hb
    · subst hb
      refine ⟨61 :: r, ?_, ?_, by simp [hr3], ?_⟩
      · show substEncode alph (61 :: rest) = _
        simp [substEncode, hr1]
      · show substDecode alph (61 :: r) = _
        simp [substDecode, hr2, Except.map]
      · intro c hc
        rcases List.mem_cons.mp hc with rfl | hc
        · exact Or.inl rfl
        · exact hr4 c hc
    · obtain ⟨idx, hidx⟩ := b64Pos_of_mem hb
      obtain ⟨hidx64, hsym, -⟩ := b64Pos_some hidx
      have hb61 : b ≠ 61 := fun hc => pad_not_mem_base64 (hc ▸ hb)
      have hidxlen : idx < alph.length := by omega
      have hderived_mem : alph.getD idx 0 ∈ BASE64_ALPHABET := by
        rw [getD_of_lt _ _ hidxlen]
        exact h.mem_iff.mp (List.getElem_mem hidxlen)
      have hderived61 : alph.getD idx 0 ≠ 61 :=
        fun hc => pad_not_mem_base64 (hc ▸ hderived_mem)
      refine ⟨alph.getD idx 0 :: r, ?_, ?_, by simp [hr3], ?_⟩
      · show substEncode alph (b :: rest) = _
        simp [substEncode, hb61, hidx, hr1]
      · show substDecode alph (alph.getD idx 0 :: r) = _
        simp only [substDecode, if_neg hderived61, findIdx?_self_of_nodup hnd hidxlen,
          hr2, Except.map, hsym]
      · intro c hc
        rcases List.mem_cons.mp hc with rfl | hc
        · exact Or.inr hderived_mem
        · exact hr4 c hc

/-! The claim-worded alphabet derivation agrees with the source's. -/

theorem specSwapGo_eq_foldl (digest : List Nat) : ∀ (fuel start : Nat) (alph : List Nat),
    specSwapGo digest fuel start alph =
      (List.range' start fuel).foldl
        (fun a i => listSwap a i ((digest.getD (i % 32) 0 + i) % 64)) alph := by
  intro fuel
  induction fuel with
  | zero => intro start alph; rfl
  | succ n ih =>
    intro start alph
    rw [List.range'_succ]
    simp only [specSwapGo, List.foldl_cons]
    exact ih (start + 1) _

/-! Facts about the embedded base64 codec. -/

theorem encodeB64_length : ∀ l : List Nat, (encodeB64 l).length = 4 * ((l.length + 2) / 3) := by
  intro l
  induction l using encodeB64.induct with
  | case1 => rfl
  | case2 b1 => simp [encodeB64]
  | case3 b1 b2 => simp [encodeB64]
  | case4 b1 b2 b3 rest ih =>
    simp only [encodeB64, List.length_cons, ih]
    omega

theorem encodeB64_chars : ∀ l : List Nat, Bytes l →
    ∀ c ∈ encodeB64 l, c = 61 ∨ c ∈ BASE64_ALPHABET := by
  intro l
  induction l using encodeB64.induct with
  | case1 => intro _ c hc; simp [encodeB64] at hc
  | case2 b1 =>
    intro hb c hc
    have h1 : b1 < 256 := hb b1 (by simp)
    simp only [encodeB64, List.mem_cons, List.not_mem_nil, or_false] at hc
    rcases hc with rfl | rfl | rfl | rfl
    · exact Or.inr (b64Sym_mem _ (by omega))
    · exact Or.inr (b64Sym_mem _ (by omega))
    · exact Or.inl rfl
    · exact Or.inl rfl
  | case3 b1 b2 =>
    intro hb c hc
    have h1 : b1 < 256 := hb b1 (by simp)
    have h2 : b2 < 256 := hb b2 (by simp)
    simp only [encodeB64, List.mem_cons, List.not_mem_nil, or_false] at hc
    rcases hc with rfl | rfl | rfl | rfl
    · exact Or.inr (b64Sym_mem _ (by omega))
    · exact Or.inr (b64Sym_mem _ (by omega))
    · exact Or.inr (b64Sym_mem _ (by omega))
    · exact Or.inl rfl
  | case4 b1 b2 b3 rest ih =>
    intro hb c hc
    have h1 : b1 < 256 := hb b1 (by simp)
    have h2 : b2 < 256 := hb b2 (by simp)
    have h3 : b3 < 256 := hb b3 (by simp)
    simp only [encodeB64, List.mem_cons] at hc
    rcases hc with rfl | rfl | rfl | rfl | hc
    · exact Or.inr (b64Sym_mem _ (by omega))
    · exact Or.inr (b64Sym_mem _ (by omega))
    · exact Or.inr (b64Sym_mem _ (by omega))
    · exact Or.inr (b64Sym_mem _ (by omega))
    · exact ih (fun b hbm => hb b (by simp [hbm])) c hc

theorem decodeB64_encodeB64 : ∀ l : List Nat, Bytes l →
    decodeB64 (encodeB64 l) = some l := by
  intro l
  induction l using encodeB64.induct with
  | case1 => intro _; rfl
  | case2 b1 =>
    intro hb
    have h1 : b1 < 256 := hb b1 (by simp)
    have e1 := b64Pos_of_lt (b1 / 4) (by omega)
    have e2 := b64Pos_of_lt (b1 % 4 * 16) (by omega)
    have hm : b1 % 4 * 16 % 16 = 0 := Nat.mul_mod_left _ _
    have ha : b1 / 4 * 4 + b1 % 4 * 16 / 16 = b1 := by omega
    simp [encodeB64, decodeB64, e1, e2, hm, ha]
    omega
  | case3 b1 b2 =>
    intro hb
    have h1 : b1 < 256 := hb b1 (by simp)
    have h2 : b2 < 256 := hb b2 (by simp)
    have e1 := b64Pos_of_lt (b1 / 4) (by omega)
    have e2 := b64Pos_of_lt (b1 % 4 * 16 + b2 / 16) (by omega)
    have e3 := b64Pos_of_lt (b2 % 16 * 4) (by omega)
    have n3 : b64Sym (b2 % 16 * 4) ≠ 61 :=
      fun hc => pad_not_mem_base64 (hc ▸ b64Sym_mem _ (by omega))
    have hm : b2 % 16 * 4 % 4 = 0 := Nat.mul_mod_left _ _
    have ha1 : b1 / 4 * 4 + (b1 % 4 * 16 + b2 / 16) / 16 = b1 := by omega
    have ha2 : (b1 % 4 * 16 + b2 / 16) % 16 * 16 + b2 % 16 * 4 / 4 = b2 := by omega
    simp [encodeB64, decodeB64, e1, e2, e3, n3, hm, ha1, ha2]
    omega
  | case4 b1 b2 b3 rest ih =>
    intro hb
    have h1 : b1 < 256 := hb b1 (by simp)
    have h2 : b2 < 256 := hb b2 (by simp)
    have h3 : b3 < 256 := hb b3 (by simp)
    have e1 := b64Pos_of_lt (b1 / 4) (by omega)
    have e2 := b64Pos_of_lt (b1 % 4 * 16 + b2 / 16) (by omega)
    have e3 := b64Pos_of_lt (b2 % 16 * 4 + b3 / 64) (by omega)
    have e4 := b64Pos_of_lt (b3 % 64) (by omega)
    have n3 : b64Sym (b2 % 16 * 4 + b3 / 64) ≠ 61 :=
      fun hc => pad_not_mem_base64 (hc ▸ b64Sym_mem _ (by omega))
    have n4 : b64Sym (b3 % 64) ≠ 61 :=
      fun hc => pad_not_mem_base64 (hc ▸ b64Sym_mem _ (by omega))
    have ha1 : b1 / 4 * 4 + (b1 % 4 * 16 + b2 / 16) / 16 = b1 := by omega
    have ha2 : (b1 % 4 * 16 + b2 / 16) % 16 * 16 + (b2 % 16 * 4 + b3 / 64) / 4 = b2 := by
      omega
    have ha3 : (b2 % 16 * 4 + b3 / 64) % 4 * 64 + b3 % 64 = b3 := by omega
    have ihr := ih (fun b hbm => hb b (by simp [hbm]))
    rcases Decidable.em (rest = []) with hrest | hrest
    · subst hrest
      simp [encodeB64, decodeB64, e1, e2, e3, e4, n3, n4, ha1, ha2, ha3]
    · have hlenpos : 0 < rest.length := List.length_pos.mpr hrest
      have hlen := encodeB64_length rest
      have hne : encodeB64 rest ≠ [] := by
        intro hc
        rw [hc] at hlen
        simp at hlen
        omega
      have hie : (encodeB64 rest).isEmpty = false := by
        cases hE : encodeB64 rest with
        | nil => exact absurd hE hne
        | cons a as => rfl
      simp [encodeB64, decodeB64, e1, e2, e3, e4, hie, ihr, ha1, ha2, ha3]

theorem decodeB64_canonical : ∀ l d : List Nat, decodeB64 l = some d →
    encodeB64 d = l ∧ Bytes d := by
  intro l
  induction l using decodeB64.induct with
  | case1 =>
    intro d hd
    simp only [decodeB64, Option.some.injEq] at hd
    subst hd
    exact ⟨rfl, by simp [Bytes]⟩
  | case2 c1 c2 rest i1 i2 hp2 hp1 hrest hmod =>
    intro d hd
    have hrnil : rest = [] := List.isEmpty_iff.mp hrest
    subst hrnil
    obtain ⟨h164, hs1, -⟩ := b64Pos_some hp1
    obtain ⟨h264, hs2, -⟩ := b64Pos_some hp2
    simp only [decodeB64, hp1, hp2, List.isEmpty_nil, if_true, hmod,
      Option.some.injEq] at hd
    subst hd
    refine ⟨?_, ?_⟩
    · simp only [encodeB64]
      rw [show (i1 * 4 + i2 / 16) / 4 = i1 by omega, hs1,
          show (i1 * 4 + i2 / 16) % 4 * 16 = i2 by omega, hs2]
    · intro b hbm
      simp only [List.mem_cons, List.not_mem_nil, or_false] at hbm
      subst hbm
      omega
  | case3 c1 c2 rest i1 i2 hp2 hp1 hrest hmod =>
    intro d hd
    simp only [decodeB64, hp1, hp2, hrest, if_true, hmod, if_false] at hd
    exact Option.noConfusion hd
  | case4 c1 c2 c4 rest i1 i2 hp2 hp1 hrest hc4 =>
    intro d hd
    simp only [decodeB64, hp1, hp2, hrest, if_true, hc4, if_false] at hd
    exact Option.noConfusion hd
  | case5 c1 c2 c3 rest i1 i2 hp2 hp1 hrest hc3 i3 hp3 hmod =>
    intro d hd
    have hrnil : rest = [] := List.isEmpty_iff.mp hrest
    subst hrnil
    obtain ⟨h164, hs1, -⟩ := b64Pos_some hp1
    obtain ⟨h264, hs2, -⟩ := b64Pos_some hp2
    obtain ⟨h364, hs3, -⟩ := b64Pos_some hp3
    simp only [decodeB64, hp1, hp2, hp3, List.isEmpty_nil, if_true, hc3,
      if_false, hmod, Option.some.injEq] at hd
    subst hd
    refine ⟨?_, ?_⟩
    · simp only [encodeB64]
      rw [show (i1 * 4 + i2 / 16) / 4 = i1 by omega, hs1,
          show (i1 * 4 + i2 / 16) % 4 * 16 + (i2 % 16 * 16 + i3 / 4) / 16 = i2 by omega,
          hs2,
          show (i2 % 16 * 16 + i3 / 4) % 16 * 4 = i3 by omega, hs3]
    · intro b hbm
      simp only [List.mem_cons, List.not_mem_nil, or_false] at hbm
      rcases hbm with rfl | rfl <;> omega
  | case6 c1 c2 c3 rest i1 i2 hp2 hp1 hrest hc3 i3 hp3 hmod =>
    intro d hd
    simp only [decodeB64, hp1, hp2, hp3, hrest, if_true, hc3, if_false, hmod] at hd
    exact Option.noConfusion hd
  | case7 c1 c2 c3 c4 rest i1 i2 hp2 hp1 hrest hc3 i3 hp3 hc4 i4 hp4 =>
    intro d hd
    have hrnil : rest = [] := List.isEmpty_iff.mp hrest
    subst hrnil
    obtain ⟨h164, hs1, -⟩ := b64Pos_some hp1
    obtain ⟨h264, hs2, -⟩ := b64Pos_some hp2
    obtain ⟨h364, hs3, -⟩ := b64Pos_some hp3
    obtain ⟨h464, hs4, -⟩ := b64Pos_some hp4
    simp only [decodeB64, hp1, hp2, hp3, hp4, List.isEmpty_nil, if_true, hc3, hc4,
      if_false, Option.some.injEq] at hd
    subst hd
    refine ⟨?_, ?_⟩
    · simp only [encodeB64]
      rw [show (i1 * 4 + i2 / 16) / 4 = i1 by omega, hs1,
          show (i1 * 4 + i2 / 16) % 4 * 16 + (i2 % 16 * 16 + i3 / 4) / 16 = i2 by omega,
          hs2,
          show (i2 % 16 * 16 + i3 / 4) % 16 * 4 + (i3 % 4 * 64 + i4) / 64 = i3 by omega,
          hs3,
          show (i3 % 4 * 64 + i4) % 64 = i4 by omega, hs4]
    · intro b hbm
      simp only [List.mem_cons, List.not_mem_nil, or_false] at hbm
      rcases hbm with rfl | rfl | rfl <;> omega
  | case8 c1 c2 c3 c4 rest i1 i2 hp2 hp1 hrest hc3 i3 hp3 hc4 hp4 =>
    intro d hd
    simp only [decodeB64, hp1, hp2, hp3, hp4, hrest, if_true, hc3, hc4, if_false] at hd
    exact Option.noConfusion hd
  | case9 c1 c2 c3 c4 rest i1 i2 hp2 hp1 hrest hc3 hp3 =>
    intro d hd
    simp only [decodeB64, hp1, hp2, hp3, hrest, if_true, hc3, if_false] at hd
    exact Option.noConfusion hd
  | case10 c1 c2 c3 c4 rest i1' i2' hp2 hp1 hrest i3 i4 hp4 hp3 ih =>
    intro d hd
    obtain ⟨h164, hs1, -⟩ := b64Pos_some hp1
    obtain ⟨h264, hs2, -⟩ := b64Pos_some hp2
    obtain ⟨h364, hs3, -⟩ := b64Pos_some hp3
    obtain ⟨h464, hs4, -⟩ := b64Pos_some hp4
    rcases hrec : decodeB64 rest with _ | tl
    · simp only [decodeB64, hp1, hp2, hp3, hp4, hrest, if_false, hrec,
        Option.map_none'] at hd
      exact Option.noConfusion hd
    obtain ⟨ihe, ihb⟩ := ih tl hrec
    simp [decodeB64, hp1, hp2, hp3, hp4, hrest, hrec] at hd
    subst hd
    refine ⟨?_, ?_⟩
    · simp only [encodeB64]
      rw [show (i1' * 4 + i2' / 16) / 4 = i1' by omega, hs1,
          show (i1' * 4 + i2' / 16) % 4 * 16 + (i2' % 16 * 16 + i3 / 4) / 16 = i2' by
            omega,
          hs2,
          show (i2' % 16 * 16 + i3 / 4) % 16 * 4 + (i3 % 4 * 64 + i4) / 64 = i3 by omega,
          hs3,
          show (i3 % 4 * 64 + i4) % 64 = i4 by omega, hs4, ihe]
    · intro b hbm
      simp only [List.mem_cons] at hbm
      rcases hbm with rfl | rfl | rfl | hbm
      · omega
      · omega
      · omega
      · exact ihb b hbm
  | case11 c1 c2 c3 c4 rest i1 i2 hp2 hp1 hrest hfail =>
    intro d hd
    rcases hb3 : b64Pos c3 with _ | i3
    · simp only [decodeB64, hp1, hp2, hb3, hrest, if_false] at hd
      exact Option.noConfusion hd
    rcases hb4 : b64Pos c4 with _ | i4
    · simp only [decodeB64, hp1, hp2, hb3, hb4, hrest, if_false] at hd
      exact Option.noConfusion hd
    exact (hfail i3 i4 hb3 hb4).elim
  | case12 c1 c2 c3 c4 rest hfail =>
    intro d hd
    rcases hb1 : b64Pos c1 with _ | i1
    · simp only [decodeB64, hb1] at hd
      exact Option.noConfusion hd
    rcases hb2 : b64Pos c2 with _ | i2
    · simp only [decodeB64, hb1, hb2] at hd
      exact Option.noConfusion hd
    exact (hfail i1 i2 hb1 hb2).elim
  | case13 t hnil hlong =>
    intro d hd
    rcases t with _ | ⟨a, _ | ⟨b, _ | ⟨c, _ | ⟨e, r⟩⟩⟩⟩
    · exact absurd rfl hnil
    · simp [decodeB64] at hd
    · simp [decodeB64] at hd
    · simp [decodeB64] at hd
    · exact absurd rfl (hlong a b c e r)

/-! CRC32 and little-endian framing facts. -/

theorem crc32Step_lt {c : Nat} (h : c < M32) : crc32Step c < M32 := by
  unfold crc32Step
  have hs : c >>> 1 < M32 := by
    rw [Nat.shiftRight_eq_div_pow]
    have : c / 2 ^ 1 ≤ c := Nat.div_le_self _ _
    omega
  split
  · exact Nat.xor_lt_two_pow (n := 32) hs (by norm_num)
  · exact hs

theorem crc32Bits_lt : ∀ (n : Nat) {c : Nat}, c < M32 → crc32Bits n c < M32 := by
  intro n
  induction n with
  | zero => intro c h; exact h
  | succ k ih => intro c h; exact ih (crc32Step_lt h)

theorem crc32_lt (data : List Nat) (hb : Bytes data) : crc32 data < M32 := by
  unfold crc32
  have hfold : ∀ (l : List Nat), Bytes l → ∀ (c : Nat), c < M32 →
      l.foldl (fun c b => crc32Bits 8 (c ^^^ b)) c < M32 := by
    intro l
    induction l with
    | nil => intro _ c h; exact h
    | cons b rest ih =>
      intro hbl c h
      have hb256 : b < 256 := hbl b (List.mem_cons_self _ _)
      simp only [List.foldl_cons]
      exact ih (fun x hx => hbl x (List.mem_cons_of_mem _ hx)) _
        (crc32Bits_lt 8 (Nat.xor_lt_two_pow (n := 32) h (by omega)))
  exact Nat.xor_lt_two_pow (n := 32) (hfold data hb _ (by decide)) (by decide)

theorem toLeBytes4_bytes (n : Nat) : Bytes (toLeBytes4 n) := by
  intro b hb
  simp only [toLeBytes4, List.mem_cons, List.not_mem_nil, or_false] at hb
  rcases hb with rfl | rfl | rfl | rfl <;> exact Nat.mod_lt _ (by omega)

theorem fromLe_toLe {n : Nat} (h : n < M32) : fromLeBytes4 (toLeBytes4 n) = n := by
  have h' : n < 4294967296 := h
  simp [fromLeBytes4, toLeBytes4, Nat.shiftRight_eq_div_pow]
  omega

theorem frame_bytes {p : List Nat} (hp : Bytes p) : Bytes (p ++ toLeBytes4 (crc32 p)) := by
  intro b hb
  rcases List.mem_append.mp hb with h | h
  · exact hp b h
  · exact toLeBytes4_bytes _ b h

theorem frame_length (p : List Nat) : (frame p).length = p.length + 4 := by
  simp [frame, toLeBytes4]

theorem unframe_frame (p : List Nat) (hp : Bytes p) :
    unframe (frame p) = Except.ok (p, crc32 p) := by
  unfold unframe frame
  have hlen : (p ++ toLeBytes4 (crc32 p)).length = p.length + 4 := by simp [toLeBytes4]
  rw [if_neg (by omega)]
  have htake : (p ++ toLeBytes4 (crc32 p)).take ((p ++ toLeBytes4 (crc32 p)).length - 4) = p := by
    rw [hlen, show p.length + 4 - 4 = p.length from by omega]
    exact List.take_left' rfl
  have hdrop : (p ++ toLeBytes4 (crc32 p)).drop ((p ++ toLeBytes4 (crc32 p)).length - 4) =
      toLeBytes4 (crc32 p) := by
    rw [hlen, show p.length + 4 - 4 = p.length from by omega]
    exact List.drop_left' rfl
  simp only [htake, hdrop, fromLe_toLe (crc32_lt p hp)]
  rw [if_neg (by simp)]

/-! Pipeline lemmas: encode always succeeds on bytes, and decode inverts
it up to the compression adapter. -/

theorem encode_eq_some (z : Lz4) (d s : List Nat) (a : CompressionAlgorithm)
    (p : List Nat)
    (harm : (match a with
             | .none => some d
             | .lz4 => z.compress d
             | .brotli => some d
             | .huffman => some d) = some p)
    (hp : Bytes p) :
    ∃ e, encode z d s a = some e ∧ e.length = 4 * ((p.length + 4 + 2) / 3) ∧
      substEncode (derive_alphabet s) (encodeB64 (p ++ toLeBytes4 (crc32 p))) = some e ∧
      (∀ c ∈ e, c = 61 ∨ c ∈ BASE64_ALPHABET) := by
  have hfb : Bytes (p ++ toLeBytes4 (crc32 p)) := frame_bytes hp
  have hchars := encodeB64_chars _ hfb
  obtain ⟨r, hr1, hr2, hr3, hr4⟩ := substEncode_ok (derive_alphabet_perm s) _ hchars
  refine ⟨r, ?_, ?_, hr1, hr4⟩
  · unfold encode
    rw [harm]
    exact hr1
  · rw [hr3, encodeB64_length]
    simp [toLeBytes4]

theorem decode_encode_frame (z : Lz4) (s p : List Nat) (hp : Bytes p)
    (a : CompressionAlgorithm) (e : List Nat)
    (he : substEncode (derive_alphabet s) (encodeB64 (p ++ toLeBytes4 (crc32 p))) = some e) :
    decode z e s a = (match a with
      | .none => Except.ok p
      | .lz4 => (match z.decompress p with
                 | some r => Except.ok r
                 | Option.none => Except.error "Decompression LZ4 failed")
      | .brotli => Except.ok p
      | .huffman => Except.ok p) := by
  have hfb : Bytes (p ++ toLeBytes4 (crc32 p)) := frame_bytes hp
  have hchars := encodeB64_chars _ hfb
  obtain ⟨r, hr1, hr2, hr3, hr4⟩ := substEncode_ok (derive_alphabet_perm s) _ hchars
  have her : e = r := by rw [hr1] at he; exact (Option.some.injEq _ _ ▸ he).symm
  subst her
  have hlen : (p ++ toLeBytes4 (crc32 p)).length = p.length + 4 := by simp [toLeBytes4]
  have htake : (p ++ toLeBytes4 (crc32 p)).take (p.length + 4 - 4) = p := by
    rw [show p.length + 4 - 4 = p.length from by omega]
    exact List.take_left' rfl
  have hdrop : (p ++ toLeBytes4 (crc32 p)).drop (p.length + 4 - 4) = toLeBytes4 (crc32 p) := by
    rw [show p.length + 4 - 4 = p.length from by omega]
    exact List.drop_left' rfl
  simp only [decode, hr2, decodeB64_encodeB64 _ hfb, hlen, htake, hdrop,
    fromLe_toLe (crc32_lt p hp)]
  rw [if_neg (by omega), if_neg (by simp)]

/-- C1: Round-trip — for all byte sequences `d` (including empty), all seeds
`s`, and every algorithm in {None, Lz4}, decoding the encoding returns the
original data.  For the Lz4 variant this holds under the external lz4
library's round-trip contract (compress succeeds producing bytes and
decompress inverts it); for None no such assumption is used. -/
theorem claim_C1_round_trip (z : Lz4) (d s : List Nat) (a : CompressionAlgorithm)
    (hd : Bytes d)
    (ha : a = CompressionAlgorithm.none ∨ a = CompressionAlgorithm.lz4)
    (hz : a = CompressionAlgorithm.lz4 →
      ∃ p, z.compress d = some p ∧ Bytes p ∧ z.decompress p = some d) :
    ∃ e, encode z d s a = some e ∧ decode z e s a = Except.ok d := by
  rcases ha with rfl | rfl
  · obtain ⟨e, he1, -, he3, -⟩ := encode_eq_some z d s .none d rfl hd
    exact ⟨e, he1, by rw [decode_encode_frame z s d hd .none e he3]⟩
  · obtain ⟨p, hzp, hpb, hzd⟩ := hz rfl
    obtain ⟨e, he1, -, he3, -⟩ := encode_eq_some z d s .lz4 p hzp hpb
    refine ⟨e, he1, ?_⟩
    rw [decode_encode_frame z s p hpb .lz4 e he3, hzd]

/-- Witness for C1 at concrete inputs, with the identity compression model
standing in for the lz4 pair. -/
theorem claim_C1_witness :
    Bytes [104, 105] ∧
    (∃ e, encode lz4Id [104, 105] [107] CompressionAlgorithm.lz4 = some e ∧
      decode lz4Id e [107] CompressionAlgorithm.lz4 = Except.ok [104, 105]) :=
  ⟨by decide,
   claim_C1_round_trip lz4Id [104, 105] [107] CompressionAlgorithm.lz4 (by decide)
     (Or.inr rfl) (fun _ => ⟨[104, 105], rfl, by decide, rfl⟩)⟩

/-- C2: Alphabet derivation algorithm — for every seed, `derive_alphabet`
computes the SHA-256 digest of the seed and, starting from the canonical
64-symbol alphabet, for each index i in [0,64) swaps positions i and
(digest[i mod 32] + i) mod 64 in place; it is total (no error condition),
as the claim's own index-by-index formulation (`derive_alphabet_claim`)
agrees with it on all seeds, the empty seed included. -/
theorem claim_C2_derive_algorithm (seed : List Nat) :
    derive_alphabet seed = derive_alphabet_claim seed := by
  unfold derive_alphabet derive_alphabet_claim
  rw [specSwapGo_eq_foldl, List.range_eq_range']

/-- C3: Alphabet bijection invariant — for every seed the derived alphabet
is a permutation of the 64 canonical symbols: no duplicates, no missing
symbols, exactly 64 entries. -/
theorem claim_C3_alphabet_bijection (seed : List Nat) :
    (derive_alphabet seed).Perm BASE64_ALPHABET ∧ (derive_alphabet seed).Nodup ∧
    (derive_alphabet seed).length = 64 ∧
    (∀ b, b ∈ derive_alphabet seed ↔ b ∈ BASE64_ALPHABET) :=
  have h := derive_alphabet_perm seed
  ⟨h, h.nodup_iff.mpr base64_nodup, by rw [h.length_eq]; exact base64_length,
   fun _ => h.mem_iff⟩

/-- C5: Totality of encode — for every byte sequence, every seed and every
algorithm variant, `encode` produces a result: neither of its two `unwrap`
sites fires.  The canonical-alphabet position lookup never fails
unconditionally; the lz4 compress call is covered by the library contract
that block compression succeeds on byte input. -/
theorem claim_C5_encode_total (z : Lz4) (d s : List Nat) (a : CompressionAlgorithm)
    (hd : Bytes d)
    (hz : a = CompressionAlgorithm.lz4 → ∃ p, z.compress d = some p ∧ Bytes p) :
    ∃ e, encode z d s a = some e := by
  cases a with
  | none => obtain ⟨e, he, -⟩ := encode_eq_some z d s .none d rfl hd; exact ⟨e, he⟩
  | brotli => obtain ⟨e, he, -⟩ := encode_eq_some z d s .brotli d rfl hd; exact ⟨e, he⟩
  | huffman => obtain ⟨e, he, -⟩ := encode_eq_some z d s .huffman d rfl hd; exact ⟨e, he⟩
  | lz4 =>
    obtain ⟨p, hp1, hp2⟩ := hz rfl
    obtain ⟨e, he, -⟩ := encode_eq_some z d s .lz4 p hp1 hp2
    exact ⟨e, he⟩

/-- Witness for C5 at concrete inputs. -/
theorem claim_C5_witness :
    Bytes [0] ∧ ∃ e, encode lz4Id [0] [] CompressionAlgorithm.none = some e :=
  ⟨by decide,
   claim_C5_encode_total lz4Id [0] [] CompressionAlgorithm.none (by decide)
     (fun h => absurd h (by decide))⟩

/-- C9: Reserved variants behave as identity — encode and decode with
Brotli or Huffman coincide with None on every input; they neither
transform data nor surface a NotImplemented error. -/
theorem claim_C9_reserved_identity (z : Lz4) (d s e : List Nat) :
    encode z d s CompressionAlgorithm.brotli = encode z d s CompressionAlgorithm.none ∧
    encode z d s CompressionAlgorithm.huffman = encode z d s CompressionAlgorithm.none ∧
    decode z e s CompressionAlgorithm.brotli = decode z e s CompressionAlgorithm.none ∧
    decode z e s CompressionAlgorithm.huffman = decode z e s CompressionAlgorithm.none :=
  ⟨rfl, rfl, rfl, rfl⟩

/-- C10: Encode output length — with the None algorithm the output length
is exactly 4 * ceil((|d| + 4) / 3); it is a positive multiple of 4, and
the empty input encodes to exactly 8 bytes. -/
theorem claim_C10_encode_length (z : Lz4) (d s : List Nat) (hd : Bytes d) :
    ∃ e, encode z d s CompressionAlgorithm.none = some e ∧
      e.length = 4 * ((d.length + 4 + 2) / 3) ∧
      e.length % 4 = 0 ∧ 0 < e.length ∧ (d = [] → e.length = 8) := by
  obtain ⟨e, he1, he2, -, -⟩ := encode_eq_some z d s .none d rfl hd
  refine ⟨e, he1, he2, by omega, by omega, ?_⟩
  intro h
  subst h
  simpa using he2

/-- Witness for C10 at concrete inputs. -/
theorem claim_C10_witness :
    Bytes [7] ∧
    (∃ e, encode lz4Id [7] [3] CompressionAlgorithm.none = some e ∧
      e.length = 4 * (([7].length + 4 + 2) / 3) ∧
      e.length % 4 = 0 ∧ 0 < e.length ∧ ([7] = ([] : List Nat) → e.length = 8)) :=
  ⟨by decide, claim_C10_encode_length lz4Id [7] [3] (by decide)⟩

/-! Unframe contract helpers. -/

theorem unframe_tooShort_iff (buffer : List Nat) :
    unframe buffer = Except.error "Data too short" ↔ buffer.length < 4 := by
  unfold unframe
  by_cases h : buffer.length < 4
  · simp [h]
  · simp only [h, if_false]
    constructor
    · intro hc
      by_cases hcrc : crc32 (buffer.take (buffer.length - 4)) ≠
          fromLeBytes4 (buffer.drop (buffer.length - 4))
      · rw [if_pos hcrc] at hc
        exact absurd (Except.error.inj hc) (by decide)
      · rw [if_neg hcrc] at hc
        exact Except.noConfusion hc
    · intro hc
      exact hc.elim

theorem unframe_mismatch_iff (buffer : List Nat) (h : 4 ≤ buffer.length) :
    unframe buffer = Except.error "Checksum mismatch" ↔
      crc32 (buffer.take (buffer.length - 4)) ≠
        fromLeBytes4 (buffer.drop (buffer.length - 4)) := by
  unfold unframe
  rw [if_neg (by omega)]
  by_cases hcrc : crc32 (buffer.take (buffer.length - 4)) ≠
      fromLeBytes4 (buffer.drop (buffer.length - 4))
  · simp [hcrc]
  · simp only [hcrc, if_false]
    constructor
    · intro hc
      exact Except.noConfusion hc
    · intro hc
      exact absurd hc (by simp at hcrc; simp [hcrc])

theorem unframe_ok_of (buffer : List Nat) (h : 4 ≤ buffer.length)
    (hcrc : crc32 (buffer.take (buffer.length - 4)) =
      fromLeBytes4 (buffer.drop (buffer.length - 4))) :
    unframe buffer = Except.ok (buffer.take (buffer.length - 4),
      fromLeBytes4 (buffer.drop (buffer.length - 4))) := by
  unfold unframe
  rw [if_neg (by omega), if_neg (by simpa using hcrc)]

/-- Decode's post-base64 stage is exactly the checksum framer's `unframe`
followed by the compression adapter. -/
theorem decode_unframe_eq (z : Lz4) (enc seed : List Nat) (a : CompressionAlgorithm) :
    decode z enc seed a =
      match substDecode (derive_alphabet seed) enc with
      | Except.error e => Except.error e
      | Except.ok std =>
        match decodeB64 std with
        | Option.none => Except.error "Invalid base64"
        | some dec =>
          match unframe dec with
          | Except.error e => Except.error e
          | Except.ok (data, _) =>
            match a with
            | CompressionAlgorithm.none => Except.ok data
            | CompressionAlgorithm.lz4 =>
                (match z.decompress data with
                 | some r => Except.ok r
                 | Option.none => Except.error "Decompression LZ4 failed")
            | CompressionAlgorithm.brotli => Except.ok data
            | CompressionAlgorithm.huffman => Except.ok data := by
  rcases h1 : substDecode (derive_alphabet seed) enc with e | std
  · simp [decode, h1]
  rcases h2 : decodeB64 std with _ | dec
  · simp [decode, h1, h2]
  by_cases h3 : dec.length < 4
  · simp [decode, h1, h2, h3, (unframe_tooShort_iff dec).mpr h3]
  by_cases h4 : crc32 (dec.take (dec.length - 4)) ≠
      fromLeBytes4 (dec.drop (dec.length - 4))
  · simp [decode, h1, h2, h3, h4, (unframe_mismatch_iff dec (by omega)).mpr h4]
  · push_neg at h4
    simp [decode, h1, h2, h3, h4, unframe_ok_of dec (by omega) h4]

/-- C4: Checksum framer contract — framing appends the 4-byte
little-endian CRC32 of the post-compression payload, so the checksum is
exactly the last 4 bytes; unframing fails with TooShort iff the buffer is
under 4 bytes, otherwise splits the last 4 bytes as the stored checksum
and fails with ChecksumMismatch iff the recomputed CRC32 over the
remainder differs; encode frames the post-compression payload before
base64, and decode's post-base64 stage is exactly this unframe. -/
theorem claim_C4_checksum_framer :
    (∀ p : List Nat, frame p = p ++ toLeBytes4 (crc32 p) ∧
      (frame p).length = p.length + 4 ∧
      (frame p).drop p.length = toLeBytes4 (crc32 p) ∧
      (toLeBytes4 (crc32 p)).length = 4) ∧
    (∀ buffer : List Nat,
      (unframe buffer = Except.error "Data too short" ↔ buffer.length < 4) ∧
      (4 ≤ buffer.length →
        ((unframe buffer = Except.error "Checksum mismatch" ↔
           crc32 (buffer.take (buffer.length - 4)) ≠
             fromLeBytes4 (buffer.drop (buffer.length - 4))) ∧
         (crc32 (buffer.take (buffer.length - 4)) =
             fromLeBytes4 (buffer.drop (buffer.length - 4)) →
           unframe buffer = Except.ok (buffer.take (buffer.length - 4),
             fromLeBytes4 (buffer.drop (buffer.length - 4))))))) ∧
    (∀ (z : Lz4) (data seed : List Nat) (a : CompressionAlgorithm),
      encode z data seed a =
        match (match a with
               | CompressionAlgorithm.none => some data
               | CompressionAlgorithm.lz4 => z.compress data
               | CompressionAlgorithm.brotli => some data
               | CompressionAlgorithm.huffman => some data) with
        | Option.none => Option.none
        | some p => substEncode (derive_alphabet seed) (encodeB64 (frame p))) ∧
    (∀ (z : Lz4) (enc seed : List Nat) (a : CompressionAlgorithm),
      decode z enc seed a =
        match substDecode (derive_alphabet seed) enc with
        | Except.error e => Except.error e
        | Except.ok std =>
          match decodeB64 std with
          | Option.none => Except.error "Invalid base64"
          | some dec =>
            match unframe dec with
            | Except.error e => Except.error e
            | Except.ok (data, _) =>
              match a with
              | CompressionAlgorithm.none => Except.ok data
              | CompressionAlgorithm.lz4 =>
                  (match z.decompress data with
                   | some r => Except.ok r
                   | Option.none => Except.error "Decompression LZ4 failed")
              | CompressionAlgorithm.brotli => Except.ok data
              | CompressionAlgorithm.huffman => Except.ok data) :=
  ⟨fun p => ⟨rfl, frame_length p, List.drop_left' rfl, rfl⟩,
   fun buffer => ⟨unframe_tooShort_iff buffer,
     fun h => ⟨unframe_mismatch_iff buffer h, unframe_ok_of buffer h⟩⟩,
   fun _ _ _ _ => rfl,
   decode_unframe_eq⟩

/-- Witness for C4's conditional parts at a concrete buffer. -/
theorem claim_C4_witness :
    (unframe [1, 2, 3] = Except.error "Data too short" ↔ [1, 2, 3].length < 4) ∧
    (4 ≤ [9, 0, 0, 0, 0].length →
      ((unframe [9, 0, 0, 0, 0] = Except.error "Checksum mismatch" ↔
         crc32 ([9, 0, 0, 0, 0].take 1) ≠ fromLeBytes4 ([9, 0, 0, 0, 0].drop 1)) ∧
       (crc32 ([9, 0, 0, 0, 0].take 1) = fromLeBytes4 ([9, 0, 0, 0, 0].drop 1) →
         unframe [9, 0, 0, 0, 0] =
           Except.ok ([9, 0, 0, 0, 0].take 1, fromLeBytes4 ([9, 0, 0, 0, 0].drop 1))))) :=
  ⟨(claim_C4_checksum_framer.2.1 [1, 2, 3]).1,
   (claim_C4_checksum_framer.2.1 [9, 0, 0, 0, 0]).2⟩

/-! Facts about the keyless verifier's per-byte mapping. -/

theorem pvMap_unknown {b : Nat} (hmem : b ∉ BASE64_ALPHABET) (hb : b ≠ 61) :
    pvMap b = 65 := by
  unfold pvMap
  rw [if_neg hb]
  rcases hp : b64Pos b with _ | idx
  · rfl
  · exact absurd (b64Pos_some hp).2.2 hmem

theorem pvMap_fix {c : Nat} (h : c = 61 ∨ c ∈ BASE64_ALPHABET) : pvMap c = c := by
  rcases h with rfl | h
  · rfl
  · unfold pvMap
    obtain ⟨idx, hidx⟩ := b64Pos_of_mem h
    rw [if_neg (by rintro rfl; exact pad_not_mem_base64 h), hidx]
    exact (b64Pos_some hidx).2.1

theorem pv_map_id {e : List Nat} (h : ∀ c ∈ e, c = 61 ∨ c ∈ BASE64_ALPHABET) :
    e.map pvMap = e :=
  (List.map_congr_left fun c hc => pvMap_fix (h c hc)).trans (List.map_id e)

/-- C7: Totality and leniency of partial_verify — on every byte input it
returns a boolean; a byte outside the canonical alphabet that is not the
padding byte is mapped to alphabet index 0 (the byte of symbol 0, `A`)
rather than failing; and every base64-decoding failure or too-short frame
yields `false`. -/
theorem claim_C7_partial_verify_total (input : List Nat) :
    (partial_verify input = true ∨ partial_verify input = false) ∧
    (∀ b ∈ input, b ∉ BASE64_ALPHABET → b ≠ 61 → pvMap b = 65) ∧
    (decodeB64 (input.map pvMap) = Option.none → partial_verify input = false) ∧
    (∀ dec, decodeB64 (input.map pvMap) = some dec → dec.length < 4 →
      partial_verify input = false) := by
  refine ⟨?_, fun b _ hm hb => pvMap_unknown hm hb, ?_, ?_⟩
  · cases h : partial_verify input
    · exact Or.inr rfl
    · exact Or.inl rfl
  · intro h
    simp [partial_verify, h]
  · intro dec h hlen
    simp [partial_verify, h, show ¬(4 ≤ dec.length) from by omega]

/-- Witness for C7 at a concrete input: byte 0 is unknown and maps to
symbol `A`; the resulting one-byte text fails base64 decoding, so the
probe answers false. -/
theorem claim_C7_witness : pvMap 0 = 65 ∧ partial_verify [0] = false :=
  ⟨(claim_C7_partial_verify_total [0]).2.1 0 (by decide) (by decide) (by decide),
   (claim_C7_partial_verify_total [0]).2.2.1 (by decide)⟩

/-- C8 counterexample: the seed `"143"` (bytes 49, 52, 51) derives a
non-trivial alphabet whose position 0 still holds the symbol `A`; the
empty payload frames to four zero bytes, whose base64 text `AAAAAA==`
uses only the fixed symbol, so the seeded encoding is byte-identical to
an unseeded one and `partial_verify` answers `true`, refuting the claim
that it is false for every non-trivial seed. -/
theorem claim_C8_counterexample :
    derive_alphabet [49, 52, 51] ≠ BASE64_ALPHABET ∧
    encode lz4Id [] [49, 52, 51] CompressionAlgorithm.none =
      some [65, 65, 65, 65, 65, 65, 61, 61] ∧
    partial_verify [65, 65, 65, 65, 65, 65, 61, 61] = true :=
  ⟨by decide, by decide, by decide⟩

/-- C8 amended: on any output of `encode` (whose bytes are all canonical
symbols or padding, so the keyless probe's substitution fixes them),
`partial_verify` returns true exactly when the encoded text itself,
read as standard base64, decodes to a frame of at least 4 bytes whose
stored checksum matches — which a wrong or non-trivial seed makes
overwhelmingly unlikely but, as the counterexample shows, not
impossible. -/
theorem claim_C8_amended (z : Lz4) (d s : List Nat) (a : CompressionAlgorithm)
    (hd : Bytes d)
    (hz : a = CompressionAlgorithm.lz4 → ∃ p, z.compress d = some p ∧ Bytes p)
    (e : List Nat) (he : encode z d s a = some e) :
    partial_verify e = true ↔
      ∃ dec, decodeB64 e = some dec ∧ 4 ≤ dec.length ∧
        crc32 (dec.take (dec.length - 4)) = fromLeBytes4 (dec.drop (dec.length - 4)) := by
  have hchars : ∀ c ∈ e, c = 61 ∨ c ∈ BASE64_ALPHABET := by
    obtain ⟨p, harm, hp⟩ : ∃ p, (match a with
        | CompressionAlgorithm.none => some d
        | CompressionAlgorithm.lz4 => z.compress d
        | CompressionAlgorithm.brotli => some d
        | CompressionAlgorithm.huffman => some d) = some p ∧ Bytes p := by
      cases a with
      | none => exact ⟨d, rfl, hd⟩
      | brotli => exact ⟨d, rfl, hd⟩
      | huffman => exact ⟨d, rfl, hd⟩
      | lz4 => exact hz rfl
    obtain ⟨e', he1, -, -, he4⟩ := encode_eq_some z d s a p harm hp
    rw [he1] at he
    exact Option.some.inj he ▸ he4
  have hmap : e.map pvMap = e := pv_map_id hchars
  simp only [partial_verify, hmap]
  rcases hdec : decodeB64 e with _ | dec
  · simp
  · by_cases hlen : 4 ≤ dec.length
    · simp only [hlen, if_true, beq_iff_eq]
      constructor
      · intro h
        exact ⟨dec, rfl, hlen, h⟩
      · rintro ⟨dec', hdec', hlen', hcrc⟩
        cases Option.some.inj hdec'
        exact hcrc
    · simp only [hlen, if_false]
      constructor
      · intro h
        exact Bool.noConfusion h
      · rintro ⟨dec', hdec', hlen', -⟩
        cases Option.some.inj hdec'
        exact absurd hlen' hlen

/-- Witness for the amended C8 at the counterexample's inputs. -/
theorem claim_C8_witness :
    partial_verify [65, 65, 65, 65, 65, 65, 61, 61] = true ↔
      ∃ dec, decodeB64 [65, 65, 65, 65, 65, 65, 61, 61] = some dec ∧ 4 ≤ dec.length ∧
        crc32 (dec.take (dec.length - 4)) = fromLeBytes4 (dec.drop (dec.length - 4)) :=
  claim_C8_amended lz4Id [] [49, 52, 51] CompressionAlgorithm.none (by decide)
    (fun h => absurd h (by decide)) [65, 65, 65, 65, 65, 65, 61, 61] (by decide)

/-! Inversion and injectivity lemmas for the decode-side substitution and
the unframer, used for the corruption-detection property. -/

theorem substDecode_cons {alph : List Nat} {b : Nat} {rest m : List Nat}
    (h : substDecode alph (b :: rest) = Except.ok m) :
    ∃ c t, m = c :: t ∧ substDecode alph rest = Except.ok t ∧
      ((b = 61 ∧ c = 61) ∨
       (b ≠ 61 ∧ ∃ idx, alph.findIdx? (fun x => x == b) = some idx ∧ c = b64Sym idx)) := by
  by_cases hb : b = 61
  · subst hb
    simp only [substDecode, if_pos rfl] at h
    rcases hr : substDecode alph rest with err | t
    · rw [hr] at h
      exact Except.noConfusion h
    · rw [hr] at h
      exact ⟨61, t, (Except.ok.inj h).symm, rfl, Or.inl ⟨rfl, rfl⟩⟩
  · simp only [substDecode, if_neg hb] at h
    rcases hidx : alph.findIdx? (fun x => x == b) with _ | idx
    · rw [hidx] at h
      exact Except.noConfusion h
    · rw [hidx] at h
      rcases hr : substDecode alph rest with err | t
      · rw [hr] at h
        exact Except.noConfusion h
      · rw [hr] at h
        exact ⟨b64Sym idx, t, (Except.ok.inj h).symm, rfl, Or.inr ⟨hb, idx, rfl, rfl⟩⟩

theorem substDecode_length {alph : List Nat} : ∀ {l m : List Nat},
    substDecode alph l = Except.ok m → m.length = l.length := by
  intro l
  induction l with
  | nil =>
    intro m h
    rw [show m = [] from (Except.ok.inj h).symm]
  | cons b rest ih =>
    intro m h
    obtain ⟨c, t, hm, hr, -⟩ := substDecode_cons h
    subst hm
    simp [ih hr]

theorem substDecode_error_msg {alph : List Nat} : ∀ {l : List Nat} {msg : String},
    substDecode alph l = Except.error msg → msg = "Invalid character" := by
  intro l
  induction l with
  | nil =>
    intro msg h
    exact Except.noConfusion h
  | cons b rest ih =>
    intro msg h
    by_cases hb : b = 61
    · subst hb
      simp only [substDecode, if_pos rfl] at h
      rcases hr : substDecode alph rest with err | t
      · rw [hr] at h
        exact Except.error.inj h ▸ ih hr
      · rw [hr] at h
        exact Except.noConfusion h
    · simp only [substDecode, if_neg hb] at h
      rcases hidx : alph.findIdx? (fun x => x == b) with _ | idx
      · rw [hidx] at h
        exact (Except.error.inj h).symm
      · rw [hidx] at h
        rcases hr : substDecode alph rest with err | t
        · rw [hr] at h
          exact Except.error.inj h ▸ ih hr
        · rw [hr] at h
          exact Except.noConfusion h

theorem alph_findIdx_inv {alph : List Nat} {b idx : Nat}
    (h : alph.findIdx? (fun x => x == b) = some idx) :
    idx < alph.length ∧ alph.getD idx 0 = b := by
  rw [List.findIdx?_eq_some_iff_getElem] at h
  obtain ⟨hlt, hp, -⟩ := h
  exact ⟨hlt, by rw [getD_of_lt _ _ hlt]; exact beq_iff_eq.mp (by simpa using hp)⟩

theorem b64Sym_mem_of_lt {idx : Nat} (h : idx < 64) : b64Sym idx ∈ BASE64_ALPHABET :=
  b64Sym_mem idx h

theorem b64Sym_inj {i j : Nat} (hi : i < 64) (hj : j < 64) (h : b64Sym i = b64Sym j) :
    i = j := by
  have hi' : i < BASE64_ALPHABET.length := by rw [base64_length]; exact hi
  have hj' : j < BASE64_ALPHABET.length := by rw [base64_length]; exact hj
  rw [b64Sym, b64Sym, getD_of_lt _ _ hi', getD_of_lt _ _ hj'] at h
  exact (@List.Nodup.getElem_inj_iff _ _ base64_nodup i hi' j hj').mp h

theorem substDecode_inj {alph : List Nat} (hperm : alph.Perm BASE64_ALPHABET) :
    ∀ {l1 l2 m : List Nat}, substDecode alph l1 = Except.ok m →
      substDecode alph l2 = Except.ok m → l1 = l2 := by
  have hlen : alph.length = 64 := by rw [hperm.length_eq]; exact base64_length
  intro l1
  induction l1 with
  | nil =>
    intro l2 m h1 h2
    rw [show m = [] from (Except.ok.inj h1).symm] at h2
    cases l2 with
    | nil => rfl
    | cons b r =>
      obtain ⟨c, t, hct, -, -⟩ := substDecode_cons h2
      exact List.noConfusion hct
  | cons b1 r1 ih =>
    intro l2 m h1 h2
    obtain ⟨c1, t1, hm1, hr1, hmap1⟩ := substDecode_cons h1
    subst hm1
    cases l2 with
    | nil =>
      exact List.noConfusion (Except.ok.inj h2)
    | cons b2 r2 =>
      obtain ⟨c2, t2, hm2, hr2, hmap2⟩ := substDecode_cons h2
      obtain ⟨hc, ht⟩ := List.cons.inj hm2
      subst ht
      have hb : b1 = b2 := by
        rcases hmap1 with ⟨hb1, hc1⟩ | ⟨hb1, idx1, hidx1, hc1⟩ <;>
          rcases hmap2 with ⟨hb2, hc2⟩ | ⟨hb2, idx2, hidx2, hc2⟩
        · rw [hb1, hb2]
        · obtain ⟨hlt2, -⟩ := alph_findIdx_inv hidx2
          have : (61 : Nat) ∈ BASE64_ALPHABET := by
            rw [hc1, hc2] at hc
            rw [hc]
            exact b64Sym_mem_of_lt (by omega)
          exact absurd this pad_not_mem_base64
        · obtain ⟨hlt1, -⟩ := alph_findIdx_inv hidx1
          have : (61 : Nat) ∈ BASE64_ALPHABET := by
            rw [hc1, hc2] at hc
            rw [← hc]
            exact b64Sym_mem_of_lt (by omega)
          exact absurd this pad_not_mem_base64
        · obtain ⟨hlt1, hv1⟩ := alph_findIdx_inv hidx1
          obtain ⟨hlt2, hv2⟩ := alph_findIdx_inv hidx2
          rw [hc1, hc2] at hc
          have hidx : idx1 = idx2 := b64Sym_inj (by omega) (by omega) hc
          rw [← hv1, ← hv2, hidx]
      rw [hb, ih hr1 hr2]

theorem unframe_ok_inv {buffer : List Nat} {pr : List Nat × Nat}
    (h : unframe buffer = Except.ok pr) :
    4 ≤ buffer.length ∧
    crc32 (buffer.take (buffer.length - 4)) = fromLeBytes4 (buffer.drop (buffer.length - 4)) ∧
    pr = (buffer.take (buffer.length - 4), fromLeBytes4 (buffer.drop (buffer.length - 4))) := by
  unfold unframe at h
  by_cases h4 : buffer.length < 4
  · rw [if_pos h4] at h
    exact Except.noConfusion h
  · rw [if_neg h4] at h
    by_cases hc : crc32 (buffer.take (buffer.length - 4)) ≠
        fromLeBytes4 (buffer.drop (buffer.length - 4))
    · rw [if_pos hc] at h
      exact Except.noConfusion h
    · rw [if_neg hc] at h
      push_neg at hc
      exact ⟨by omega, hc, (Except.ok.inj h).symm⟩

theorem unframe_error_msg {buffer : List Nat} {msg : String} (h4 : 4 ≤ buffer.length)
    (h : unframe buffer = Except.error msg) : msg = "Checksum mismatch" := by
  unfold unframe at h
  rw [if_neg (by omega)] at h
  by_cases hc : crc32 (buffer.take (buffer.length - 4)) ≠
      fromLeBytes4 (buffer.drop (buffer.length - 4))
  · rw [if_pos hc] at h
    exact (Except.error.inj h).symm
  · rw [if_neg hc] at h
    exact Except.noConfusion h

/-- C6: Single-byte corruption detection — replace any one byte of the
encoded output by a different byte value and decode with the same seed
and algorithm: the result is Invalid character, Invalid base64 or
Checksum mismatch, and never a silent success over different bytes,
except in the checksum-collision edge case (`ChecksumCollision`), the
only route by which decoding can proceed past checksum verification. -/
theorem claim_C6_single_byte_corruption
    (z : Lz4) (d s : List Nat) (a : CompressionAlgorithm) (p : List Nat)
    (harm : (match a with
             | CompressionAlgorithm.none => some d
             | CompressionAlgorithm.lz4 => z.compress d
             | CompressionAlgorithm.brotli => some d
             | CompressionAlgorithm.huffman => some d) = some p)
    (hp : Bytes p) (e : List Nat) (he : encode z d s a = some e)
    (i : Nat) (hi : i < e.length) (b : Nat) (hb : b < 256)
    (hbne : b ≠ e.getD i 0) :
    decode z (e.set i b) s a = Except.error "Invalid character" ∨
    decode z (e.set i b) s a = Except.error "Invalid base64" ∨
    decode z (e.set i b) s a = Except.error "Checksum mismatch" ∨
    ChecksumCollision s (e.set i b) p := by
  obtain ⟨e', he1, he2, he3, he4⟩ := encode_eq_some z d s a p harm hp
  rw [he1] at he
  rw [show e' = e from Option.some.inj he] at he2 he3 he4
  rw [decode_unframe_eq]
  rcases h1 : substDecode (derive_alphabet s) (e.set i b) with msg | std
  · left
    simp only [h1]
    rw [substDecode_error_msg h1]
  rcases h2 : decodeB64 std with _ | dec
  · right; left
    simp [h1, h2]
  obtain ⟨hdecenc, hdecbytes⟩ := decodeB64_canonical std dec h2
  have hstdlen : std.length = e.length := by
    rw [substDecode_length h1]
    simp
  have hdlen : 4 ≤ dec.length := by
    have h5 := encodeB64_length dec
    rw [hdecenc] at h5
    omega
  rcases h3 : unframe dec with msg | pr
  · right; right; left
    simp only [h1, h2, h3]
    rw [unframe_error_msg hdlen h3]
  obtain ⟨-, hcrceq, hpr⟩ := unframe_ok_inv h3
  by_cases hdp : dec = p ++ toLeBytes4 (crc32 p)
  · exfalso
    obtain ⟨r, hr1, hr2, -, -⟩ :=
      substEncode_ok (derive_alphabet_perm s) _ (encodeB64_chars _ (frame_bytes hp))
    have her : r = e := by
      rw [he3] at hr1
      exact (Option.some.inj hr1).symm
    have hstd_eq : substDecode (derive_alphabet s) e = Except.ok std := by
      rw [← her] at *
      rw [hr2, ← hdecenc, hdp]
    have heq : e.set i b = e := substDecode_inj (derive_alphabet_perm s) h1 hstd_eq
    have hset : (e.set i b).getD i 0 = b := by
      rw [getD_of_lt _ _ (by simpa using hi)]
      exact List.getElem_set_self (by simpa using hi)
    rw [heq] at hset
    exact hbne hset.symm
  · right; right; right
    exact ⟨std, dec, h1, h2, hdp, hdlen, hcrceq⟩

/-- Witness for C6 at concrete inputs: corrupting the first byte of the
encoding of the empty payload under the empty seed. -/
theorem claim_C6_witness :
    decode lz4Id ([106, 106, 106, 106, 106, 106, 61, 61].set 0 65) []
        CompressionAlgorithm.none = Except.error "Invalid character" ∨
    decode lz4Id ([106, 106, 106, 106, 106, 106, 61, 61].set 0 65) []
        CompressionAlgorithm.none = Except.error "Invalid base64" ∨
    decode lz4Id ([106, 106, 106, 106, 106, 106, 61, 61].set 0 65) []
        CompressionAlgorithm.none = Except.error "Checksum mismatch" ∨
    ChecksumCollision [] ([106, 106, 106, 106, 106, 106, 61, 61].set 0 65) [] :=
  claim_C6_single_byte_corruption lz4Id [] [] CompressionAlgorithm.none [] rfl
    (by decide) [106, 106, 106, 106, 106, 106, 61, 61] (by decide)
    0 (by decide) 65 (by decide) (by decide)
